import Mathlib

/-!
Shallow embedding of the HMMER P7_TRACE traceback module.

The repository provides the interface and data model in src/base/p7_trace.h:
the P7_TRACE structure (parallel per-step arrays st/k/i/pp, running maxima
M and L, and a derived domain index), the state-type enumeration, and the
classification macros.  The function bodies (p7_trace.c) are not part of
the sources, so every operation below is a model: each one carries a doc
comment starting with the state of affairs it is modelled from.  The data
model, the enumeration and the macros are translated directly from the
header.

Machine integers are modelled as Int (no overflow is relevant to the
properties below), floats as exact rationals (Rat).
-/

/-- Modelled from the spec: easel status codes (easel.h is not in src);
only distinctness of the codes matters to the development. -/
def eslOK : Int := 0

/-- Modelled from the spec: generic failure code used by Validate and Compare. -/
def eslFAIL : Int := 1

/-- Modelled from the spec: allocation-failure code (AllocationFailure). -/
def eslEMEM : Int := 5

/-- Modelled from the spec: format-error code (FormatError). -/
def eslEFORMAT : Int := 7

/-- State types, from enum p7t_statetype_e in p7_trace.h. -/
inductive p7t_statetype where
  | BOGUS
  | ML
  | MG
  | IL
  | IG
  | DL
  | DG
  | S
  | N
  | B
  | L
  | G
  | E
  | C
  | J
  | T
deriving DecidableEq

/-- Numeric code of each state type, matching enum p7t_statetype_e values. -/
def p7t_code : p7t_statetype → Nat
  | .BOGUS => 0
  | .ML => 1
  | .MG => 2
  | .IL => 3
  | .IG => 4
  | .DL => 5
  | .DG => 6
  | .S => 7
  | .N => 8
  | .B => 9
  | .L => 10
  | .G => 11
  | .E => 12
  | .C => 13
  | .J => 14
  | .T => 15

/-- Macro p7_trace_IsMain: (s) >= p7T_ML && (s) <= p7T_DG. -/
def p7_trace_IsMain (s : p7t_statetype) : Bool :=
  decide (p7t_code p7t_statetype.ML ≤ p7t_code s ∧ p7t_code s ≤ p7t_code p7t_statetype.DG)

/-- Macro p7_trace_IsM: (s) == p7T_ML || (s) == p7T_MG. -/
def p7_trace_IsM (s : p7t_statetype) : Bool :=
  decide (s = p7t_statetype.ML ∨ s = p7t_statetype.MG)

/-- Macro p7_trace_IsI: (s) == p7T_IL || (s) == p7T_IG. -/
def p7_trace_IsI (s : p7t_statetype) : Bool :=
  decide (s = p7t_statetype.IL ∨ s = p7t_statetype.IG)

/-- Macro p7_trace_IsD: (s) == p7T_DL || (s) == p7T_DG. -/
def p7_trace_IsD (s : p7t_statetype) : Bool :=
  decide (s = p7t_statetype.DL ∨ s = p7t_statetype.DG)

/-- Macro p7_trace_IsGlocal: G, MG, DG or IG. -/
def p7_trace_IsGlocal (s : p7t_statetype) : Bool :=
  decide (s = p7t_statetype.G ∨ s = p7t_statetype.MG ∨ s = p7t_statetype.DG ∨ s = p7t_statetype.IG)

/-- Macro p7_trace_IsLocal: L, ML, DL or IL. -/
def p7_trace_IsLocal (s : p7t_statetype) : Bool :=
  decide (s = p7t_statetype.L ∨ s = p7t_statetype.ML ∨ s = p7t_statetype.DL ∨ s = p7t_statetype.IL)

/-- One step of a traceback: the z-th entries of the parallel arrays
st[] (state type), k[] (node, 1..M for main states else 0), i[] (emitted
position, 1..L for emitting steps else 0), pp[] (posterior, 0 when not
emitting).  The C struct is a struct-of-arrays; a list of steps carries
the same information with the length field N = steps.length. -/
structure P7_Step where
  st : p7t_statetype
  k : Int
  i : Int
  pp : Rat
deriving DecidableEq

/-- One entry of the domain index: tfrom/tto (trace positions of B and E),
sqfrom/sqto (first/last M-emitted residue), hmmfrom/hmmto (first/last M/D
node), as documented in the P7_TRACE struct. The deprecated anch field is
omitted (flagged in the spec as a removable vestige). -/
structure P7_Dom where
  tfrom : Int
  tto : Int
  sqfrom : Int
  sqto : Int
  hmmfrom : Int
  hmmto : Int
deriving DecidableEq

/-- The P7_TRACE structure.  steps holds the live prefix 0..N-1 of the
parallel arrays; nalloc is the allocated capacity; M and L are the running
maxima of node and position; dom is the domain index (ndom = dom.length)
with capacity ndomalloc. -/
structure P7_TRACE where
  steps : List P7_Step
  nalloc : Nat
  M : Int
  L : Int
  dom : List P7_Dom
  ndomalloc : Nat
deriving DecidableEq

/-- Trace length N (the C struct stores it explicitly; here it is the
length of the live step list). -/
def P7_TRACE.N (tr : P7_TRACE) : Nat := tr.steps.length

/-- Number of indexed domains. -/
def P7_TRACE.ndom (tr : P7_TRACE) : Nat := tr.dom.length

/-- Modelled from the spec: p7_trace_Create returns an empty buffer, N=0
(p7_trace.c is not in src).  The initial capacity value is irrelevant to
the claims. -/
def p7_trace_Create : P7_TRACE :=
  { steps := [], nalloc := 256, M := 0, L := 0, dom := [], ndomalloc := 0 }

/-- Modelled from the spec: Reuse resets N and ndom to 0 retaining
capacity. -/
def p7_trace_Reuse (tr : P7_TRACE) : P7_TRACE :=
  { tr with steps := [], dom := [], M := 0, L := 0 }

/-- Modelled from the spec: p7_trace_Grow doubles the capacity when the
buffer is full; growth can fail with an allocation error that leaves the
buffer untouched.  Allocation success is an oracle parameter allocok,
standing for whether the realloc can be satisfied. -/
def p7_trace_Grow (allocok : Bool) (tr : P7_TRACE) : P7_TRACE × Int :=
  if tr.steps.length < tr.nalloc then (tr, eslOK)
  else if allocok then ({ tr with nalloc := 2 * tr.nalloc }, eslOK)
  else (tr, eslEMEM)

/-- Modelled from the spec: p7_trace_Append grows storage if needed, then
stores one step (posterior 0; AppendWithPP would store a posterior) and
updates the running maxima M and L.  On allocation failure it returns the
buffer unchanged with eslEMEM. -/
def p7_trace_Append (allocok : Bool) (tr : P7_TRACE) (st : p7t_statetype) (k i : Int) :
    P7_TRACE × Int :=
  let g := p7_trace_Grow allocok tr
  if g.2 = eslOK then
    ({ g.1 with steps := g.1.steps ++ [⟨st, k, i, 0⟩],
                M := max g.1.M k, L := max g.1.L i }, eslOK)
  else (g.1, g.2)

/-- Modelled from the spec: p7_trace_Reverse reverses all per-step
sequences in place; it cannot fail (the C function returns eslOK
unconditionally). -/
def p7_trace_Reverse (tr : P7_TRACE) : P7_TRACE :=
  { tr with steps := tr.steps.reverse }

/-- The st[] array of a trace. -/
def P7_TRACE.st_arr (tr : P7_TRACE) : List p7t_statetype := tr.steps.map P7_Step.st

/-- The k[] array of a trace. -/
def P7_TRACE.k_arr (tr : P7_TRACE) : List Int := tr.steps.map P7_Step.k

/-- The i[] array of a trace. -/
def P7_TRACE.i_arr (tr : P7_TRACE) : List Int := tr.steps.map P7_Step.i

/-- The pp[] array of a trace. -/
def P7_TRACE.pp_arr (tr : P7_TRACE) : List Rat := tr.steps.map P7_Step.pp

/-- C1: Reverse is an involution: applying p7_trace_Reverse twice
reproduces the original per-step arrays (state type, node, position,
posterior) exactly and leaves N unchanged. -/
theorem p7_trace_Reverse_involution (tr : P7_TRACE) :
    (p7_trace_Reverse (p7_trace_Reverse tr)).st_arr = tr.st_arr ∧
    (p7_trace_Reverse (p7_trace_Reverse tr)).k_arr = tr.k_arr ∧
    (p7_trace_Reverse (p7_trace_Reverse tr)).i_arr = tr.i_arr ∧
    (p7_trace_Reverse (p7_trace_Reverse tr)).pp_arr = tr.pp_arr ∧
    (p7_trace_Reverse (p7_trace_Reverse tr)).N = tr.N ∧
    (p7_trace_Reverse tr).N = tr.N := by
  simp [p7_trace_Reverse, P7_TRACE.st_arr, P7_TRACE.k_arr, P7_TRACE.i_arr,
        P7_TRACE.pp_arr, P7_TRACE.N]

/-- C2: Append is atomic with respect to allocation failure: either it
succeeds — the new step is stored after the prior N steps (preserved
verbatim), N becomes N+1 and the running maxima M, L are updated — or it
fails with eslEMEM leaving the buffer exactly as it was. -/
theorem p7_trace_Append_atomic (allocok : Bool) (tr : P7_TRACE) (st : p7t_statetype) (k i : Int) :
    ((p7_trace_Append allocok tr st k i).2 = eslOK ∧
     (p7_trace_Append allocok tr st k i).1.steps = tr.steps ++ [⟨st, k, i, 0⟩] ∧
     (p7_trace_Append allocok tr st k i).1.N = tr.N + 1 ∧
     (p7_trace_Append allocok tr st k i).1.M = max tr.M k ∧
     (p7_trace_Append allocok tr st k i).1.L = max tr.L i) ∨
    ((p7_trace_Append allocok tr st k i).2 = eslEMEM ∧
     (p7_trace_Append allocok tr st k i).1 = tr) := by
  by_cases hroom : tr.steps.length < tr.nalloc
  · left
    simp [p7_trace_Append, p7_trace_Grow, hroom, P7_TRACE.N]
  · cases allocok with
    | true =>
        left
        simp [p7_trace_Append, p7_trace_Grow, hroom, P7_TRACE.N]
    | false =>
        right
        simp [p7_trace_Append, p7_trace_Grow, hroom, eslEMEM, eslOK]

/-- Bool test: is a state type B or E (the domain delimiters). -/
def isBE (s : p7t_statetype) : Bool :=
  decide (s = p7t_statetype.B ∨ s = p7t_statetype.E)

/-- The subsequence of B/E state types of a trace, in order. -/
def beFilter (l : List P7_Step) : List p7t_statetype :=
  (l.map P7_Step.st).filter isBE

/-- The B/E subsequence consists of matching pairs: it is of the form
(B E)*.  This is the matched-pair condition of the data model (domains
delimited by matching B/E pairs, non-overlapping). -/
def bePaired : List p7t_statetype → Bool
  | [] => true
  | [_] => false
  | x :: y :: rest =>
    decide (x = p7t_statetype.B) && decide (y = p7t_statetype.E) && bePaired rest

/-- Number of steps of a trace whose state type is x. -/
def countSt (x : p7t_statetype) (l : List P7_Step) : Nat :=
  (l.filter (fun s => decide (s.st = x))).length

/-- Number of occurrences of a state type in a state-type list. -/
def countTy (x : p7t_statetype) (f : List p7t_statetype) : Nat :=
  (f.filter (fun y => decide (y = x))).length

/-- Modelled from the spec and the P7_TRACE struct comments: the domain
record for one B..E span.  tfrom/tto are the trace positions of the B and
the E; sqfrom/sqto the first/last M-emitted residue among the match steps
of the span; hmmfrom/hmmto the first/last M/D node of the span (nodes are
non-decreasing within a domain, so first/last are the minimum/maximum
touched).  0 is recorded when the span holds no such step. -/
def domFromSpan (tfrom tto : Nat) (span : List P7_Step) : P7_Dom :=
  let msteps := span.filter (fun s => p7_trace_IsM s.st)
  let mdsteps := span.filter (fun s => p7_trace_IsM s.st || p7_trace_IsD s.st)
  { tfrom := (tfrom : Int), tto := (tto : Int),
    sqfrom := ((msteps.map P7_Step.i).head?.getD 0),
    sqto := ((msteps.map P7_Step.i).getLast?.getD 0),
    hmmfrom := ((mdsteps.map P7_Step.k).head?.getD 0),
    hmmto := ((mdsteps.map P7_Step.k).getLast?.getD 0) }

/-- Modelled from the spec: the single forward scan of p7_trace_Index.
z is the current trace position; the Option carries an open domain (the
position of its B and the steps seen inside it); acc the domains closed so
far.  A B inside an open domain, an E outside one, or a B left open at the
end is an unmatched B/E and fails (none). -/
def indexScan : List P7_Step → Nat → Option (Nat × List P7_Step) → List P7_Dom →
    Option (List P7_Dom)
  | [], _, none, acc => some acc
  | [], _, some _, _ => none
  | s :: rest, z, none, acc =>
    if s.st = p7t_statetype.B then indexScan rest (z + 1) (some (z, [])) acc
    else if s.st = p7t_statetype.E then none
    else indexScan rest (z + 1) none acc
  | s :: rest, z, some (tf, span), acc =>
    if s.st = p7t_statetype.B then none
    else if s.st = p7t_statetype.E then
      indexScan rest (z + 1) none (acc ++ [domFromSpan tf z span])
    else indexScan rest (z + 1) (some (tf, span ++ [s])) acc

/-- Modelled from the spec: p7_trace_Index scans a finished,
forward-oriented trace once, records one domain per B/E pair, and fails
with a format error on an unmatched B or E, leaving the trace unindexed. -/
def p7_trace_Index (tr : P7_TRACE) : P7_TRACE × Int :=
  match indexScan tr.steps 0 none [] with
  | some doms => ({ tr with dom := doms, ndomalloc := max tr.ndomalloc doms.length }, eslOK)
  | none => (tr, eslEFORMAT)

lemma beFilter_cons (s : P7_Step) (rest : List P7_Step) :
    beFilter (s :: rest) = if isBE s.st then s.st :: beFilter rest else beFilter rest := by
  simp [beFilter, List.filter_cons]

lemma countSt_cons (x : p7t_statetype) (s : P7_Step) (rest : List P7_Step) :
    countSt x (s :: rest) = (if s.st = x then 1 else 0) + countSt x rest := by
  by_cases h : s.st = x
  · simp [countSt, List.filter_cons, h]
    omega
  · simp [countSt, List.filter_cons, h]

lemma indexScan_ok (l : List P7_Step) :
    ∀ z acc,
      (bePaired (beFilter l) = true →
        ∃ doms, indexScan l z none acc = some doms ∧
          doms.length = acc.length + countSt p7t_statetype.B l) ∧
      (∀ tf span,
        (∃ f, beFilter l = p7t_statetype.E :: f ∧ bePaired f = true) →
        ∃ doms, indexScan l z (some (tf, span)) acc = some doms ∧
          doms.length = acc.length + 1 + countSt p7t_statetype.B l) := by
  induction l with
  | nil =>
      intro z acc
      refine ⟨fun _ => ⟨acc, rfl, by simp [countSt]⟩, ?_⟩
      rintro tf span ⟨f, hf, -⟩
      simp [beFilter] at hf
  | cons s rest ih =>
      intro z acc
      by_cases hB : s.st = p7t_statetype.B
      · constructor
        · intro hp
          rw [beFilter_cons, hB] at hp
          simp [isBE] at hp
          have hshape : ∃ f, beFilter rest = p7t_statetype.E :: f ∧ bePaired f = true := by
            cases hbf : beFilter rest with
            | nil => rw [hbf] at hp; simp [bePaired] at hp
            | cons y f =>
                rw [hbf] at hp
                simp [bePaired] at hp
                exact ⟨f, by rw [hp.1], hp.2⟩
          obtain ⟨doms, hscan, hlen⟩ := (ih (z + 1) acc).2 z [] hshape
          refine ⟨doms, ?_, ?_⟩
          · simp [indexScan, hB, hscan]
          · rw [countSt_cons, hB]; simp; omega
        · rintro tf span ⟨f, hf, -⟩
          rw [beFilter_cons, hB] at hf
          simp [isBE] at hf
      · by_cases hE : s.st = p7t_statetype.E
        · constructor
          · intro hp
            rw [beFilter_cons, hE] at hp
            simp [isBE] at hp
            cases hbf : beFilter rest with
            | nil => rw [hbf] at hp; simp [bePaired] at hp
            | cons y f => rw [hbf] at hp; simp [bePaired] at hp
          · rintro tf span ⟨f, hf, hpf⟩
            rw [beFilter_cons, hE] at hf
            simp [isBE] at hf
            have hfr : beFilter rest = f := hf
            obtain ⟨doms, hscan, hlen⟩ :=
              (ih (z + 1) (acc ++ [domFromSpan tf z span])).1 (hfr ▸ hpf)
            refine ⟨doms, ?_, ?_⟩
            · simp [indexScan, hB, hE, hscan]
            · rw [countSt_cons]
              simp [hB] at *
              omega
        · have hbe : isBE s.st = false := by simp [isBE, hB, hE]
          constructor
          · intro hp
            rw [beFilter_cons, hbe] at hp
            simp at hp
            obtain ⟨doms, hscan, hlen⟩ := (ih (z + 1) acc).1 hp
            refine ⟨doms, ?_, ?_⟩
            · simp [indexScan, hB, hE, hscan]
            · rw [countSt_cons]; simp [hB]; omega
          · rintro tf span hex
            rw [beFilter_cons, hbe] at hex
            simp at hex
            obtain ⟨doms, hscan, hlen⟩ := (ih (z + 1) acc).2 tf (span ++ [s]) hex
            refine ⟨doms, ?_, ?_⟩
            · simp [indexScan, hB, hE, hscan]
            · rw [countSt_cons]; simp [hB]; omega

lemma indexScan_fail (l : List P7_Step) :
    ∀ z acc,
      (bePaired (beFilter l) = false → indexScan l z none acc = none) ∧
      (∀ tf span,
        (∀ f, beFilter l = p7t_statetype.E :: f → bePaired f = false) →
        indexScan l z (some (tf, span)) acc = none) := by
  induction l with
  | nil =>
      intro z acc
      refine ⟨fun hp => ?_, fun tf span _ => rfl⟩
      simp [beFilter, bePaired] at hp
  | cons s rest ih =>
      intro z acc
      by_cases hB : s.st = p7t_statetype.B
      · constructor
        · intro hp
          rw [beFilter_cons, hB] at hp
          simp [isBE] at hp
          have hopen : ∀ f, beFilter rest = p7t_statetype.E :: f → bePaired f = false := by
            intro f hf
            rw [hf] at hp
            simpa [bePaired] using hp
          have := (ih (z + 1) acc).2 z [] hopen
          simp [indexScan, hB, this]
        · intro tf span _
          simp [indexScan, hB]
      · by_cases hE : s.st = p7t_statetype.E
        · constructor
          · intro _
            simp [indexScan, hB, hE]
          · intro tf span hopen
            rw [beFilter_cons, hE] at hopen
            simp [isBE] at hopen
            have := (ih (z + 1) (acc ++ [domFromSpan tf z span])).1 hopen
            simp [indexScan, hB, hE, this]
        · have hbe : isBE s.st = false := by simp [isBE, hB, hE]
          constructor
          · intro hp
            rw [beFilter_cons, hbe] at hp
            simp at hp
            have := (ih (z + 1) acc).1 hp
            simp [indexScan, hB, hE, this]
          · intro tf span hopen
            rw [beFilter_cons, hbe] at hopen
            simp at hopen
            have := (ih (z + 1) acc).2 tf (span ++ [s]) hopen
            simp [indexScan, hB, hE, this]

lemma bePaired_count :
    ∀ f, bePaired f = true → countTy p7t_statetype.B f = countTy p7t_statetype.E f := by
  intro f
  induction f using bePaired.induct with
  | case1 => intro _; simp [countTy]
  | case2 y => intro hp; simp [bePaired] at hp
  | case3 x y rest ih =>
      intro hp
      simp only [bePaired, Bool.and_eq_true, decide_eq_true_eq] at hp
      obtain ⟨⟨hx, hy⟩, hrest⟩ := hp
      subst hx
      subst hy
      have h2 := ih hrest
      simp [countTy, List.filter_cons] at h2 ⊢
      omega

lemma countTy_beFilter (x : p7t_statetype) (hx : isBE x = true) (l : List P7_Step) :
    countTy x (beFilter l) = countSt x l := by
  induction l with
  | nil => simp [countTy, countSt, beFilter]
  | cons s rest ih =>
      rw [beFilter_cons, countSt_cons]
      by_cases hbe : isBE s.st
      · rw [if_pos hbe]
        by_cases hsx : s.st = x
        · simp [countTy, List.filter_cons, hsx] at ih ⊢
          omega
        · simp [countTy, List.filter_cons, hsx] at ih ⊢
          omega
      · rw [if_neg hbe]
        have hsx : s.st ≠ x := by
          intro h
          rw [h] at hbe
          exact hbe hx
        simp [hsx, ih]

def exC4 : P7_TRACE :=
  { steps := [⟨.S,0,0,0⟩, ⟨.N,0,0,0⟩, ⟨.B,0,0,0⟩, ⟨.L,0,0,0⟩,
              ⟨.ML,1,1,0⟩, ⟨.ML,2,2,0⟩, ⟨.E,0,0,0⟩, ⟨.C,0,0,0⟩, ⟨.T,0,0,0⟩],
    nalloc := 9, M := 2, L := 2, dom := [], ndomalloc := 0 }

def exC3good : P7_TRACE :=
  { steps := [⟨.S,0,0,0⟩, ⟨.N,0,0,0⟩, ⟨.B,0,0,0⟩, ⟨.L,0,0,0⟩, ⟨.ML,1,1,0⟩, ⟨.E,0,0,0⟩,
              ⟨.J,0,0,0⟩, ⟨.B,0,0,0⟩, ⟨.L,0,0,0⟩, ⟨.ML,2,2,0⟩, ⟨.E,0,0,0⟩,
              ⟨.C,0,0,0⟩, ⟨.T,0,0,0⟩],
    nalloc := 13, M := 2, L := 2, dom := [], ndomalloc := 0 }

def exC3bad : P7_TRACE :=
  { steps := [⟨.S,0,0,0⟩, ⟨.N,0,0,0⟩, ⟨.B,0,0,0⟩, ⟨.L,0,0,0⟩, ⟨.ML,1,1,0⟩,
              ⟨.C,0,0,0⟩, ⟨.T,0,0,0⟩],
    nalloc := 7, M := 1, L := 1, dom := [], ndomalloc := 0 }

theorem p7_trace_Index_matched_pairs (tr : P7_TRACE) :
    (bePaired (beFilter tr.steps) = true →
      (p7_trace_Index tr).2 = eslOK ∧
      (p7_trace_Index tr).1.ndom = countSt p7t_statetype.B tr.steps ∧
      countSt p7t_statetype.B tr.steps = countSt p7t_statetype.E tr.steps) ∧
    (bePaired (beFilter tr.steps) = false →
      (p7_trace_Index tr).2 = eslEFORMAT) := by
  constructor
  · intro hp
    obtain ⟨doms, hscan, hlen⟩ := (indexScan_ok tr.steps 0 []).1 hp
    have hBE : countSt p7t_statetype.B tr.steps = countSt p7t_statetype.E tr.steps := by
      have hB := countTy_beFilter p7t_statetype.B (by simp [isBE]) tr.steps
      have hE := countTy_beFilter p7t_statetype.E (by simp [isBE]) tr.steps
      rw [← hB, ← hE, bePaired_count _ hp]
    refine ⟨?_, ?_, hBE⟩
    · simp [p7_trace_Index, hscan]
    · simp [p7_trace_Index, hscan, P7_TRACE.ndom]
      simpa using hlen
  · intro hp
    have hnone := (indexScan_fail tr.steps 0 []).1 hp
    simp [p7_trace_Index, hnone]

theorem p7_trace_Index_matched_pairs_witness :
    ((p7_trace_Index exC3good).2 = eslOK ∧
     (p7_trace_Index exC3good).1.ndom = countSt p7t_statetype.B exC3good.steps ∧
     countSt p7t_statetype.B exC3good.steps = countSt p7t_statetype.E exC3good.steps) ∧
    (p7_trace_Index exC3bad).2 = eslEFORMAT :=
  ⟨(p7_trace_Index_matched_pairs exC3good).1 (by decide),
   (p7_trace_Index_matched_pairs exC3bad).2 (by decide)⟩

theorem p7_trace_Index_scenario :
    (p7_trace_Index exC4).2 = eslOK ∧
    (p7_trace_Index exC4).1.ndom = 1 ∧
    ((p7_trace_Index exC4).1.dom.map (fun d => (d.sqfrom, d.sqto, d.hmmfrom, d.hmmto))) =
      [(1, 2, 1, 2)] := by
  decide

/-- Modelled from the spec: the profile score tables consumed read-only by
the Scorer — a transition score for each ordered pair of (state type,
node) and an emission score for a (state type, node) at a residue.  All
scores are finite by construction (exact rationals model the float
tables). -/
structure P7_PROFILE where
  M : Int
  tsc : p7t_statetype → Int → p7t_statetype → Int → Rat
  esc : p7t_statetype → Int → Nat → Rat

/-- Score contribution of one consecutive step pair (a, b): the transition
score into b plus, when b emits (i nonzero), the emission score of residue
dsq(i) by b. -/
def stepTerm (gm : P7_PROFILE) (dsq : Int → Nat) (a b : P7_Step) : Rat :=
  gm.tsc a.st a.k b.st b.k + (if b.i ≠ 0 then gm.esc b.st b.k (dsq b.i) else 0)

/-- The ordered list of score terms of a trace, one per consecutive step
pair, walking S to T. -/
def scoreTerms (gm : P7_PROFILE) (dsq : Int → Nat) : List P7_Step → List Rat
  | [] => []
  | [_] => []
  | a :: b :: rest => stepTerm gm dsq a b :: scoreTerms gm dsq (b :: rest)

/-- Modelled from the spec: p7_trace_Score, the naive ordered summation of
per-step transition+emission scores walking the trace S to T. -/
def p7_trace_Score (gm : P7_PROFILE) (dsq : Int → Nat) (tr : P7_TRACE) : Rat :=
  (scoreTerms gm dsq tr.steps).sum

/-- The T-to-S loop of ScoreBackwards: its argument is the reversed step
list, and for each adjacent pair seen back-to-front it adds the same
transition+emission term the forward walk adds. -/
def scoreBackLoop (gm : P7_PROFILE) (dsq : Int → Nat) : List P7_Step → Rat
  | [] => 0
  | [_] => 0
  | b :: a :: rest => stepTerm gm dsq a b + scoreBackLoop gm dsq (a :: rest)

/-- Modelled from the spec: p7_trace_ScoreBackwards recomputes the score
sum walking T to S. -/
def p7_trace_ScoreBackwards (gm : P7_PROFILE) (dsq : Int → Nat) (tr : P7_TRACE) : Rat :=
  scoreBackLoop gm dsq tr.steps.reverse

lemma scoreTerms_snoc2 (gm : P7_PROFILE) (dsq : Int → Nat) :
    ∀ (xs : List P7_Step) (a b : P7_Step),
      scoreTerms gm dsq (xs ++ [a, b]) =
        scoreTerms gm dsq (xs ++ [a]) ++ [stepTerm gm dsq a b] := by
  intro xs
  induction xs with
  | nil => intro a b; simp [scoreTerms]
  | cons x xs ih =>
      intro a b
      cases xs with
      | nil => simp [scoreTerms]
      | cons y ys =>
          simp [scoreTerms]
          exact ih a b

lemma scoreBackLoop_eq_sum (gm : P7_PROFILE) (dsq : Int → Nat) :
    ∀ r : List P7_Step, scoreBackLoop gm dsq r = (scoreTerms gm dsq r.reverse).sum := by
  intro r
  induction r using scoreBackLoop.induct gm dsq with
  | case1 => simp [scoreBackLoop, scoreTerms]
  | case2 x => simp [scoreBackLoop, scoreTerms]
  | case3 b a rest ih =>
      have hrev : (b :: a :: rest).reverse = (rest.reverse ++ [a]) ++ [b] := by
        simp
      rw [scoreBackLoop, ih, hrev]
      have h2 : (rest.reverse ++ [a]) ++ [b] = rest.reverse ++ [a, b] := by
        simp
      rw [h2, scoreTerms_snoc2]
      have h3 : (a :: rest).reverse = rest.reverse ++ [a] := by simp
      rw [h3]
      simp [add_comm]

/-- C5: forward and backward trace scoring agree: over a profile with
finite scores (exact arithmetic), p7_trace_Score (S-to-T summation) and
p7_trace_ScoreBackwards (T-to-S summation) differ by at most any fixed
tolerance eps ≥ 0 — in this exact model they are equal. -/
theorem p7_trace_Score_backwards_agree (gm : P7_PROFILE) (dsq : Int → Nat) (tr : P7_TRACE)
    (eps : Rat) (heps : 0 ≤ eps) :
    |p7_trace_Score gm dsq tr - p7_trace_ScoreBackwards gm dsq tr| ≤ eps := by
  have h : p7_trace_ScoreBackwards gm dsq tr = p7_trace_Score gm dsq tr := by
    rw [p7_trace_ScoreBackwards, scoreBackLoop_eq_sum, List.reverse_reverse, p7_trace_Score]
  rw [h, sub_self, abs_zero]
  exact heps

/-- A concrete profile with constant score tables, for witnesses. -/
def gmConst : P7_PROFILE :=
  { M := 2, tsc := fun _ _ _ _ => 1, esc := fun _ _ _ => 1 }

/-- A concrete digital sequence, for witnesses. -/
def dsqConst : Int → Nat := fun _ => 0

theorem p7_trace_Score_backwards_agree_witness :
    (0 : Rat) ≤ 1 / 10000 ∧
    |p7_trace_Score gmConst dsqConst exC4 - p7_trace_ScoreBackwards gmConst dsqConst exC4| ≤
      1 / 10000 :=
  ⟨by norm_num,
   p7_trace_Score_backwards_agree gmConst dsqConst exC4 (1 / 10000) (by norm_num)⟩

/-- Elementwise comparison loop of p7_trace_Compare: same state type, node
and position at every step, posteriors within pptol; traces of different
lengths are unequal. -/
def compareSteps (pptol : Rat) : List P7_Step → List P7_Step → Bool
  | [], [] => true
  | a :: l1, b :: l2 =>
    decide (a.st = b.st) && decide (a.k = b.k) && decide (a.i = b.i) &&
      decide (|a.pp - b.pp| ≤ pptol) && compareSteps pptol l1 l2
  | _, _ => false

/-- Modelled from the spec: p7_trace_Compare — equal iff same length and
identical state/node/position sequences elementwise, with posteriors
agreeing within pptol; returns eslOK when equal, eslFAIL otherwise. -/
def p7_trace_Compare (tr1 tr2 : P7_TRACE) (pptol : Rat) : Int :=
  if compareSteps pptol tr1.steps tr2.steps then eslOK else eslFAIL

lemma compareSteps_refl (pptol : Rat) (hp : 0 ≤ pptol) :
    ∀ l : List P7_Step, compareSteps pptol l l = true := by
  intro l
  induction l with
  | nil => rfl
  | cons a l ih => simp [compareSteps, ih, sub_self, abs_zero, hp]

/-- C8: Compare is reflexive: for every trace tr and every tolerance
pptol ≥ 0, p7_trace_Compare tr tr pptol reports the traces equal. -/
theorem p7_trace_Compare_refl (tr : P7_TRACE) (pptol : Rat) (hp : 0 ≤ pptol) :
    p7_trace_Compare tr tr pptol = eslOK := by
  rw [p7_trace_Compare, if_pos (compareSteps_refl pptol hp tr.steps)]

theorem p7_trace_Compare_refl_witness :
    (0 : Rat) ≤ 0 ∧ p7_trace_Compare exC3good exC3good 0 = eslOK :=
  ⟨le_refl 0, p7_trace_Compare_refl exC3good 0 (le_refl 0)⟩

/-- The repaired match step for an adjacent delete-insert pair (d, ins):
the merged match takes the node of the delete, the emitted position and
posterior of the insert, and keeps the glocal/local flavor of the
delete. -/
def doctorDI (d ins : P7_Step) : P7_Step :=
  { st := if p7_trace_IsGlocal d.st then p7t_statetype.MG else p7t_statetype.ML,
    k := d.k, i := ins.i, pp := ins.pp }

/-- The repaired match step for an adjacent insert-delete pair (ins, d):
the merged match takes the node of the delete (the next column), the
emitted position and posterior of the insert, and the flavor of the
delete. -/
def doctorID (ins d : P7_Step) : P7_Step :=
  { st := if p7_trace_IsGlocal d.st then p7t_statetype.MG else p7t_statetype.ML,
    k := d.k, i := ins.i, pp := ins.pp }

/-- Modelled from the spec: the rewrite loop of p7_trace_Doctor.  Each
adjacent delete-insert pair is replaced by one match step (a D-to-I
repair), each adjacent insert-delete pair by one match step (an I-to-D
repair); both counts are reported.  All other steps are copied through
unchanged. -/
def doctorSteps : List P7_Step → List P7_Step × Nat × Nat
  | [] => ([], 0, 0)
  | [s] => ([s], 0, 0)
  | a :: b :: rest =>
    if p7_trace_IsD a.st && p7_trace_IsI b.st then
      let r := doctorSteps rest
      (doctorDI a b :: r.1, r.2.1 + 1, r.2.2)
    else if p7_trace_IsI a.st && p7_trace_IsD b.st then
      let r := doctorSteps rest
      (doctorID a b :: r.1, r.2.1, r.2.2 + 1)
    else
      let r := doctorSteps (b :: rest)
      (a :: r.1, r.2.1, r.2.2)
termination_by l => l.length

/-- Modelled from the spec: p7_trace_Doctor rewrites pathological adjacent
delete/insert patterns into the canonical grammar form, reporting the
number of D-to-I and I-to-D repairs; the domain index is untouched. -/
def p7_trace_Doctor (tr : P7_TRACE) : P7_TRACE × Nat × Nat :=
  let r := doctorSteps tr.steps
  ({ tr with steps := r.1 }, r.2.1, r.2.2)

/-- The emitted positions of a trace, in order: the nonzero i values
carried by emitting steps. -/
def emittedPositions (l : List P7_Step) : List Int :=
  (l.filter (fun s => decide (s.i ≠ 0))).map P7_Step.i

/-- The non-main (special) steps of a trace, in order. -/
def specialSteps (l : List P7_Step) : List P7_Step :=
  l.filter (fun s => !p7_trace_IsMain s.st)

lemma isMain_of_isD (s : p7t_statetype) (h : p7_trace_IsD s = true) :
    p7_trace_IsMain s = true := by
  revert h
  cases s <;> simp [p7_trace_IsD, p7_trace_IsMain, p7t_code]

lemma isMain_of_isI (s : p7t_statetype) (h : p7_trace_IsI s = true) :
    p7_trace_IsMain s = true := by
  revert h
  cases s <;> simp [p7_trace_IsI, p7_trace_IsMain, p7t_code]

lemma doctorDI_main (a b : P7_Step) : p7_trace_IsMain (doctorDI a b).st = true := by
  by_cases hg : p7_trace_IsGlocal a.st <;>
    simp [doctorDI, hg, p7_trace_IsMain, p7t_code]

lemma doctorID_main (a b : P7_Step) : p7_trace_IsMain (doctorID a b).st = true := by
  by_cases hg : p7_trace_IsGlocal b.st <;>
    simp [doctorID, hg, p7_trace_IsMain, p7t_code]

lemma specialSteps_cons (s : P7_Step) (l : List P7_Step) :
    specialSteps (s :: l) =
      if p7_trace_IsMain s.st = true then specialSteps l else s :: specialSteps l := by
  by_cases h : p7_trace_IsMain s.st = true <;>
    simp [specialSteps, List.filter_cons, h]

lemma emittedPositions_cons (s : P7_Step) (l : List P7_Step) :
    emittedPositions (s :: l) =
      if s.i = 0 then emittedPositions l else s.i :: emittedPositions l := by
  by_cases h : s.i = 0 <;> simp [emittedPositions, List.filter_cons, h]

lemma doctorSteps_specials (l : List P7_Step) :
    specialSteps (doctorSteps l).1 = specialSteps l := by
  induction l using doctorSteps.induct with
  | case1 => simp [doctorSteps]
  | case2 s => simp [doctorSteps]
  | case3 a b rest h ih =>
      have hs : p7_trace_IsD a.st = true ∧ p7_trace_IsI b.st = true := by simpa using h
      simp only [doctorSteps]
      rw [if_pos h]
      rw [specialSteps_cons, if_pos (doctorDI_main a b), ih,
          specialSteps_cons, if_pos (isMain_of_isD a.st hs.1),
          specialSteps_cons, if_pos (isMain_of_isI b.st hs.2)]
  | case4 a b rest h h2 ih =>
      have hs : p7_trace_IsI a.st = true ∧ p7_trace_IsD b.st = true := by simpa using h2
      simp only [doctorSteps]
      rw [if_neg h, if_pos h2]
      rw [specialSteps_cons, if_pos (doctorID_main a b), ih,
          specialSteps_cons, if_pos (isMain_of_isI a.st hs.1),
          specialSteps_cons, if_pos (isMain_of_isD b.st hs.2)]
  | case5 a b rest h h2 ih =>
      simp only [doctorSteps]
      rw [if_neg h, if_neg h2]
      rw [specialSteps_cons, specialSteps_cons, ih]

lemma doctorSteps_emitted :
    ∀ l : List P7_Step, (∀ s ∈ l, p7_trace_IsD s.st = true → s.i = 0) →
      emittedPositions (doctorSteps l).1 = emittedPositions l := by
  intro l
  induction l using doctorSteps.induct with
  | case1 => intro _; simp [doctorSteps]
  | case2 s => intro _; simp [doctorSteps]
  | case3 a b rest h ih =>
      intro hD
      have hs : p7_trace_IsD a.st = true ∧ p7_trace_IsI b.st = true := by simpa using h
      have ha : a.i = 0 := hD a (by simp) hs.1
      have hrest : ∀ s ∈ rest, p7_trace_IsD s.st = true → s.i = 0 := by
        intro s hmem
        exact hD s (by simp [hmem])
      simp only [doctorSteps]
      rw [if_pos h]
      have hdi : (doctorDI a b).i = b.i := rfl
      rw [emittedPositions_cons, hdi, ih hrest,
          emittedPositions_cons, if_pos ha, emittedPositions_cons]
  | case4 a b rest h h2 ih =>
      intro hD
      have hs : p7_trace_IsI a.st = true ∧ p7_trace_IsD b.st = true := by simpa using h2
      have hb : b.i = 0 := hD b (by simp) hs.2
      have hrest : ∀ s ∈ rest, p7_trace_IsD s.st = true → s.i = 0 := by
        intro s hmem
        exact hD s (by simp [hmem])
      simp only [doctorSteps]
      rw [if_neg h, if_pos h2]
      have hdi : (doctorID a b).i = a.i := rfl
      rw [emittedPositions_cons, hdi, ih hrest, emittedPositions_cons,
          emittedPositions_cons, if_pos hb]
  | case5 a b rest h h2 ih =>
      intro hD
      have hrest : ∀ s ∈ b :: rest, p7_trace_IsD s.st = true → s.i = 0 := by
        intro s hmem
        exact hD s (by simp at hmem ⊢; tauto)
      simp only [doctorSteps]
      rw [if_neg h, if_neg h2]
      rw [emittedPositions_cons, emittedPositions_cons, ih hrest]

lemma doctorSteps_len (l : List P7_Step) :
    (doctorSteps l).1.length + (doctorSteps l).2.1 + (doctorSteps l).2.2 = l.length := by
  induction l using doctorSteps.induct with
  | case1 => simp [doctorSteps]
  | case2 s => simp [doctorSteps]
  | case3 a b rest h ih =>
      simp only [doctorSteps]
      rw [if_pos h]
      simp only [List.length_cons]
      omega
  | case4 a b rest h h2 ih =>
      simp only [doctorSteps]
      rw [if_neg h, if_pos h2]
      simp only [List.length_cons]
      omega
  | case5 a b rest h h2 ih =>
      simp only [doctorSteps]
      rw [if_neg h, if_neg h2]
      simp only [List.length_cons] at ih ⊢
      omega

lemma countSt_specialSteps (x : p7t_statetype) (hx : p7_trace_IsMain x = false) :
    ∀ l : List P7_Step, countSt x (specialSteps l) = countSt x l := by
  intro l
  induction l with
  | nil => rfl
  | cons s rest ih =>
      rw [specialSteps_cons]
      by_cases hm : p7_trace_IsMain s.st = true
      · rw [if_pos hm]
        have hne : s.st ≠ x := by
          intro hcon
          rw [hcon, hx] at hm
          exact Bool.false_ne_true hm
        rw [countSt_cons]
        simp [hne, ih]
      · rw [if_neg hm, countSt_cons, countSt_cons]
        by_cases hex : s.st = x <;> simp [hex, ih]

/-- C7: p7_trace_Doctor leaves the domain index (hence ndom) unchanged,
preserves the multiset of emitted residues (the nonzero positions carried
by emitting steps, given that delete steps are non-emitting as the data
model requires), touches no step outside the repaired adjacent
insert/delete pairs (every special step is preserved in order, so the
count of B states — the domain count — is also preserved), and the
reported D-to-I and I-to-D repair counts account exactly for the steps
removed by the repairs. -/
theorem p7_trace_Doctor_preserves (tr : P7_TRACE)
    (hD : ∀ s ∈ tr.steps, p7_trace_IsD s.st = true → s.i = 0) :
    (p7_trace_Doctor tr).1.dom = tr.dom ∧
    countSt p7t_statetype.B (p7_trace_Doctor tr).1.steps = countSt p7t_statetype.B tr.steps ∧
    (↑(emittedPositions (p7_trace_Doctor tr).1.steps) : Multiset Int) =
      ↑(emittedPositions tr.steps) ∧
    specialSteps (p7_trace_Doctor tr).1.steps = specialSteps tr.steps ∧
    (p7_trace_Doctor tr).1.N + (p7_trace_Doctor tr).2.1 + (p7_trace_Doctor tr).2.2 = tr.N := by
  have hsteps : (p7_trace_Doctor tr).1.steps = (doctorSteps tr.steps).1 := rfl
  have hdom : (p7_trace_Doctor tr).1.dom = tr.dom := rfl
  have hspec := doctorSteps_specials tr.steps
  have hemit := doctorSteps_emitted tr.steps hD
  have hlen := doctorSteps_len tr.steps
  refine ⟨hdom, ?_, ?_, ?_, ?_⟩
  · rw [hsteps, ← countSt_specialSteps p7t_statetype.B rfl (doctorSteps tr.steps).1, hspec,
        countSt_specialSteps p7t_statetype.B rfl tr.steps]
  · rw [hsteps, hemit]
  · rw [hsteps, hspec]
  · rw [P7_TRACE.N, P7_TRACE.N, hsteps]
    exact hlen

/-- A trace with one adjacent delete-insert pair, for the Doctor witness. -/
def exC7 : P7_TRACE :=
  { steps := [⟨.S,0,0,0⟩, ⟨.N,0,0,0⟩, ⟨.B,0,0,0⟩, ⟨.G,0,0,0⟩,
              ⟨.MG,1,1,0⟩, ⟨.DG,2,0,0⟩, ⟨.IG,2,2,0⟩, ⟨.MG,3,3,0⟩,
              ⟨.E,0,0,0⟩, ⟨.C,0,0,0⟩, ⟨.T,0,0,0⟩],
    nalloc := 11, M := 3, L := 3, dom := [], ndomalloc := 0 }

theorem p7_trace_Doctor_preserves_witness :
    (p7_trace_Doctor exC7).1.dom = exC7.dom ∧
    countSt p7t_statetype.B (p7_trace_Doctor exC7).1.steps =
      countSt p7t_statetype.B exC7.steps ∧
    (↑(emittedPositions (p7_trace_Doctor exC7).1.steps) : Multiset Int) =
      ↑(emittedPositions exC7.steps) ∧
    specialSteps (p7_trace_Doctor exC7).1.steps = specialSteps exC7.steps ∧
    (p7_trace_Doctor exC7).1.N + (p7_trace_Doctor exC7).2.1 + (p7_trace_Doctor exC7).2.2 =
      exC7.N :=
  p7_trace_Doctor_preserves exC7 (by decide)

/-- Number of match columns in a column-assignment vector. -/
def countTrue (l : List Bool) : Nat := (l.filter id).length

/-- Bool test: is a step a match or delete (M/D) main-model step. -/
def isMDstep (s : P7_Step) : Bool := p7_trace_IsM s.st || p7_trace_IsD s.st

/-- The node values of the M/D steps of a step list, in order. -/
def mdNodes (l : List P7_Step) : List Int := (l.filter isMDstep).map P7_Step.k

/-- Modelled from the spec: the per-column loop of p7_trace_FauxFromMSA
for one aligned sequence.  matassign and row walk the alignment columns
together (k = last model node used, c = current 1-based column): a match
column advances the node and yields a match step when the row carries a
residue there, a delete step otherwise; an insert column yields an insert
step at the current node when the row carries a residue, nothing
otherwise.  Emitted coordinates are alignment-column coordinates. -/
def fauxBody : List Bool → List Bool → Int → Int → List P7_Step
  | true :: mas, r :: rs, k, c =>
    (if r then (⟨.MG, k + 1, c, 0⟩ : P7_Step) else ⟨.DG, k + 1, 0, 0⟩) ::
      fauxBody mas rs (k + 1) (c + 1)
  | false :: mas, r :: rs, k, c =>
    (if r then [(⟨.IG, k, c, 0⟩ : P7_Step)] else []) ++ fauxBody mas rs k (c + 1)
  | _, _, _, _ => []

/-- Modelled from the spec: p7_trace_FauxFromMSA builds a complete,
already-indexed, forward-oriented (glocal) trace for one aligned sequence
directly from the column-assignment vector, without dynamic programming.
Fails with a format error when the assignment length disagrees with the
alignment column count.  (The leading/trailing-assignment legality check
the spec also mentions is not modelled; it plays no role in the claims.) -/
def p7_trace_FauxFromMSA (matassign row : List Bool) : Except Int P7_TRACE :=
  if matassign.length ≠ row.length then .error eslEFORMAT
  else
    let body := fauxBody matassign row 0 1
    let steps := [⟨.S,0,0,0⟩, ⟨.N,0,0,0⟩, ⟨.B,0,0,0⟩, ⟨.G,0,0,0⟩] ++ body ++
                 [⟨.E,0,0,0⟩, ⟨.C,0,0,0⟩, ⟨.T,0,0,0⟩]
    .ok { steps := steps, nalloc := steps.length,
          M := (countTrue matassign : Int), L := (matassign.length : Int),
          dom := (indexScan steps 0 none []).getD [], ndomalloc := 1 }

/-- The node enumeration k+1, k+2, ..., k+n. -/
def nodeEnum (k : Int) : Nat → List Int
  | 0 => []
  | n + 1 => (k + 1) :: nodeEnum (k + 1) n

lemma nodeEnum_range (n : Nat) :
    ∀ k : Int, nodeEnum k n = (List.range n).map (fun (j : Nat) => k + (j : Int) + 1) := by
  induction n with
  | zero => intro k; simp [nodeEnum]
  | succ n ih =>
      intro k
      rw [nodeEnum, List.range_succ_eq_map, List.map_cons, List.map_map, ih (k + 1)]
      refine congrArg₂ List.cons (by simp) (List.map_congr_left ?_)
      intro j _
      simp [Function.comp, Nat.succ_eq_add_one]
      ring

lemma mdNodes_cons (x : P7_Step) (l : List P7_Step) :
    mdNodes (x :: l) = if isMDstep x = true then x.k :: mdNodes l else mdNodes l := by
  by_cases h : isMDstep x = true <;> simp [mdNodes, List.filter_cons, h]

lemma mdNodes_append (l1 l2 : List P7_Step) :
    mdNodes (l1 ++ l2) = mdNodes l1 ++ mdNodes l2 := by
  simp [mdNodes, List.filter_append]

lemma fauxBody_mdNodes :
    ∀ (mas rs : List Bool) (k c : Int), mas.length = rs.length →
      mdNodes (fauxBody mas rs k c) = nodeEnum k (countTrue mas) := by
  intro mas
  induction mas with
  | nil =>
      intro rs k c h
      cases rs with
      | nil => simp [fauxBody, mdNodes, countTrue, nodeEnum]
      | cons r rs => simp at h
  | cons ma mas ih =>
      intro rs k c h
      cases rs with
      | nil => simp at h
      | cons r rs =>
          simp only [List.length_cons, Nat.add_right_cancel_iff] at h
          cases ma with
          | true =>
              have hct : countTrue (true :: mas) = countTrue mas + 1 := by
                simp [countTrue, List.filter_cons]
              rw [hct, nodeEnum]
              have hmd : isMDstep (if r = true then (⟨.MG, k + 1, c, 0⟩ : P7_Step)
                  else ⟨.DG, k + 1, 0, 0⟩) = true := by
                cases r <;> simp [isMDstep, p7_trace_IsM, p7_trace_IsD]
              have hk : (if r = true then (⟨.MG, k + 1, c, 0⟩ : P7_Step)
                  else ⟨.DG, k + 1, 0, 0⟩).k = k + 1 := by
                cases r <;> simp
              rw [fauxBody, mdNodes_cons, if_pos hmd, hk, ih rs (k + 1) (c + 1) h]
          | false =>
              have hct : countTrue (false :: mas) = countTrue mas := by
                simp [countTrue, List.filter_cons]
              rw [hct]
              rw [fauxBody, mdNodes_append]
              have hins : mdNodes (if r = true then [(⟨.IG, k, c, 0⟩ : P7_Step)] else []) = [] := by
                cases r <;> simp [mdNodes, isMDstep, p7_trace_IsM, p7_trace_IsD]
              rw [hins, List.nil_append, ih rs k (c + 1) h]

lemma nodeEnum_length (n : Nat) : ∀ k : Int, (nodeEnum k n).length = n := by
  induction n with
  | zero => intro k; rfl
  | succ n ih =>
      intro k
      rw [nodeEnum]
      simp [ih]

lemma nodeEnum_zero (n : Nat) :
    nodeEnum 0 n = (List.range n).map (fun (j : Nat) => (j : Int) + 1) := by
  rw [nodeEnum_range]
  exact List.map_congr_left (by intro j _; simp)

/-- C6 (amended): over every alignment row and match-column assignment of
equal length with exactly m match columns, FauxFromMSA succeeds and
produces a trace whose match/delete (M/D) main-model steps number exactly
m, with node values enumerating 1..m in order.  (Insert columns carrying
residues contribute additional insert steps repeating the current node,
which is why the claim is restricted to the M/D steps.) -/
theorem p7_trace_FauxFromMSA_MD (matassign row : List Bool)
    (h : matassign.length = row.length) :
    (p7_trace_FauxFromMSA matassign row).map
        (fun tr => (mdNodes tr.steps, (tr.steps.filter isMDstep).length)) =
      Except.ok ((List.range (countTrue matassign)).map (fun (j : Nat) => (j : Int) + 1),
                 countTrue matassign) := by
  have hguard : ¬matassign.length ≠ row.length := fun hc => hc h
  have hpre : mdNodes [(⟨.S,0,0,0⟩ : P7_Step), ⟨.N,0,0,0⟩, ⟨.B,0,0,0⟩, ⟨.G,0,0,0⟩] = [] := by
    decide
  have hpost : mdNodes [(⟨.E,0,0,0⟩ : P7_Step), ⟨.C,0,0,0⟩, ⟨.T,0,0,0⟩] = [] := by
    decide
  have hmd : mdNodes ([(⟨.S,0,0,0⟩ : P7_Step), ⟨.N,0,0,0⟩, ⟨.B,0,0,0⟩, ⟨.G,0,0,0⟩] ++
      fauxBody matassign row 0 1 ++ [(⟨.E,0,0,0⟩ : P7_Step), ⟨.C,0,0,0⟩, ⟨.T,0,0,0⟩]) =
      nodeEnum 0 (countTrue matassign) := by
    rw [mdNodes_append, mdNodes_append, fauxBody_mdNodes matassign row 0 1 h, hpre, hpost,
        List.nil_append, List.append_nil]
  have hlen : ∀ l : List P7_Step, (l.filter isMDstep).length = (mdNodes l).length := by
    intro l
    simp [mdNodes]
  simp only [p7_trace_FauxFromMSA, if_neg hguard, Except.map]
  rw [hlen, hmd, nodeEnum_zero]
  simp

theorem p7_trace_FauxFromMSA_MD_witness :
    (p7_trace_FauxFromMSA [true, true] [true, false]).map
        (fun tr => (mdNodes tr.steps, (tr.steps.filter isMDstep).length)) =
      Except.ok ((List.range (countTrue [true, true])).map (fun (j : Nat) => (j : Int) + 1),
                 countTrue [true, true]) :=
  p7_trace_FauxFromMSA_MD [true, true] [true, false] rfl

/-- C6 counterexample: for the assignment [match, insert] over a row with
residues in both columns (so m = 1 match column), the faux trace has two
main-model steps (one MG and one IG), not m = 1, and its main-model node
values repeat node 1 rather than enumerating 1..1. -/
theorem p7_trace_FauxFromMSA_main_count_cex :
    countTrue [true, false] = 1 ∧
    (p7_trace_FauxFromMSA [true, false] [true, true]).map
        (fun tr => (tr.steps.filter (fun s => p7_trace_IsMain s.st)).length) =
      Except.ok 2 ∧
    (p7_trace_FauxFromMSA [true, false] [true, true]).map
        (fun tr => (tr.steps.filter (fun s => p7_trace_IsMain s.st)).map P7_Step.k) =
      Except.ok [1, 1] ∧
    (2 : Nat) ≠ 1 := by
  refine ⟨rfl, ?_, ?_, by decide⟩
  · rfl
  · rfl

/-- Modelled from the spec and the header invariants: the per-step
coordinate checks of Validate.  Main-model states carry node 1 ≤ k ≤ M —
except insert states, which never occur at node 0 or node M (the header:
a trace contains no I0 or IM states), so 1 ≤ k ≤ M-1 for them.  Match and
insert states emit (1 ≤ i ≤ L); delete states and S/B/L/G/E/T never emit;
an N/C/J step may emit or not (emission on transition, checked against
the previous step by the walk); specials carry k = 0; the posterior lies
in [0,1] on an emitting step and is the neutral 0 otherwise. -/
def stepLocalOK (M L : Int) (s : P7_Step) : Bool :=
  (match s.st with
   | .ML | .MG => decide (1 ≤ s.k ∧ s.k ≤ M ∧ 1 ≤ s.i ∧ s.i ≤ L)
   | .IL | .IG => decide (1 ≤ s.k ∧ s.k ≤ M - 1 ∧ 1 ≤ s.i ∧ s.i ≤ L)
   | .DL | .DG => decide (1 ≤ s.k ∧ s.k ≤ M ∧ s.i = 0)
   | .S | .B | .L | .G | .E | .T => decide (s.k = 0 ∧ s.i = 0)
   | .N | .C | .J => decide (s.k = 0 ∧ (s.i = 0 ∨ (1 ≤ s.i ∧ s.i ≤ L)))
   | .BOGUS => false) &&
  (if s.i = 0 then decide (s.pp = 0) else decide (0 ≤ s.pp ∧ s.pp ≤ 1))

/-- Modelled from the spec: the transition-legality table of the fixed
grammar, with node coherence: S→N→B entry, L (local) entry to any match
column, G (glocal) entry to match or delete of column 1 only (the header:
D1 occurs only as a G→D1 entry), match/insert/delete moves advancing the
node appropriately and never mixing local with glocal flavors inside a
domain, local exit from any M/D, glocal exit only from column M, E→{C,J},
J→B restart, C→T finish.  N/C/J self-loops emit on the transition (the
destination step carries the position); the first N/C/J of a run does
not emit. -/
def p7_trace_transOK (M : Int) (a b : P7_Step) : Bool :=
  match a.st, b.st with
  | .S, .N => decide (b.i = 0)
  | .N, .N => decide (b.i ≠ 0)
  | .N, .B => true
  | .B, .L => true
  | .B, .G => true
  | .L, .ML => true
  | .G, .MG => decide (b.k = 1)
  | .G, .DG => decide (b.k = 1)
  | .ML, .ML => decide (b.k = a.k + 1)
  | .ML, .IL => decide (b.k = a.k)
  | .ML, .DL => decide (b.k = a.k + 1)
  | .ML, .E => true
  | .MG, .MG => decide (b.k = a.k + 1)
  | .MG, .IG => decide (b.k = a.k)
  | .MG, .DG => decide (b.k = a.k + 1)
  | .MG, .E => decide (a.k = M)
  | .IL, .ML => decide (b.k = a.k + 1)
  | .IL, .IL => decide (b.k = a.k)
  | .IG, .MG => decide (b.k = a.k + 1)
  | .IG, .IG => decide (b.k = a.k)
  | .DL, .ML => decide (b.k = a.k + 1)
  | .DL, .DL => decide (b.k = a.k + 1)
  | .DL, .E => true
  | .DG, .MG => decide (b.k = a.k + 1)
  | .DG, .DG => decide (b.k = a.k + 1)
  | .DG, .E => decide (a.k = M)
  | .E, .C => decide (b.i = 0)
  | .E, .J => decide (b.i = 0)
  | .C, .C => decide (b.i ≠ 0)
  | .C, .T => true
  | .J, .J => decide (b.i ≠ 0)
  | .J, .B => true
  | _, _ => false

/-- The walk of Validate over the remaining steps: a is the previous
step, lastpos the last emitted position; each next step must pass the
per-step checks, be a legal transition from a, and carry a strictly
larger position when it emits. -/
def validWalk (M L : Int) : P7_Step → Int → List P7_Step → Bool
  | _, _, [] => true
  | a, lastpos, b :: rest =>
    stepLocalOK M L b && p7_trace_transOK M a b &&
    (if b.i = 0 then true else decide (lastpos < b.i)) &&
    validWalk M L b (if b.i = 0 then lastpos else b.i) rest

/-- Modelled from the spec and the header: p7_trace_Validate.  N = 0 is a
legal empty trace ("no traceback", as when a Viterbi score is minus
infinity) and is accepted.  Otherwise the trace must start with S, end
with T, pass the per-step coordinate checks and the transition grammar,
and emit strictly increasing positions.  Alphabet-dependent residue
checks are outside the model (the alphabet is an external collaborator). -/
def validateSteps (M L : Int) : List P7_Step → Bool
  | [] => true
  | s0 :: rest =>
    stepLocalOK M L s0 && decide (s0.st = p7t_statetype.S) &&
      decide ((List.getLastD rest s0).st = p7t_statetype.T) &&
      validWalk M L s0 0 rest

def p7_trace_Validate (tr : P7_TRACE) : Int :=
  if validateSteps tr.M tr.L tr.steps then eslOK else eslFAIL

lemma stepLocalOK_I (M L : Int) (s : P7_Step) (hok : stepLocalOK M L s = true)
    (hI : p7_trace_IsI s.st = true) : 1 ≤ s.k ∧ s.k ≤ M - 1 := by
  obtain ⟨st, k, i, pp⟩ := s
  cases st
  case IL =>
    simp [stepLocalOK] at hok
    exact ⟨hok.1.1, hok.1.2.1⟩
  case IG =>
    simp [stepLocalOK] at hok
    exact ⟨hok.1.1, hok.1.2.1⟩
  all_goals simp [p7_trace_IsI] at hI

lemma validWalk_all (M L : Int) :
    ∀ (rest : List P7_Step) (a : P7_Step) (lastpos : Int),
      validWalk M L a lastpos rest = true → ∀ s ∈ rest, stepLocalOK M L s = true := by
  intro rest
  induction rest with
  | nil =>
      intro a lp _ s hs
      simp at hs
  | cons b rest ih =>
      intro a lp hw s hs
      rw [validWalk] at hw
      simp only [Bool.and_eq_true] at hw
      rcases List.mem_cons.mp hs with hsb | hsr
      · rw [hsb]
        exact hw.1.1.1
      · exact ih b _ hw.2 s hsr

/-- C9: a trace accepted by Validate contains no I0 and no IM state: every
insert (IL/IG) step has its node k in 1 ≤ k ≤ M-1, strictly tighter than
the [1, M] bound of the other main-model states. -/
theorem p7_trace_Validate_no_I0_IM (tr : P7_TRACE) (h : p7_trace_Validate tr = eslOK) :
    ∀ s ∈ tr.steps, p7_trace_IsI s.st = true → 1 ≤ s.k ∧ s.k ≤ tr.M - 1 := by
  intro s hs hI
  cases hsteps : tr.steps with
  | nil =>
      rw [hsteps] at hs
      simp at hs
  | cons s0 rest =>
      by_cases hv : validateSteps tr.M tr.L tr.steps = true
      · rw [hsteps, validateSteps] at hv
        simp only [Bool.and_eq_true] at hv
        rw [hsteps] at hs
        rcases List.mem_cons.mp hs with hs0 | hsr
        · rw [hs0]
          exact stepLocalOK_I tr.M tr.L s0 hv.1.1.1 (hs0 ▸ hI)
        · exact stepLocalOK_I tr.M tr.L s
            (validWalk_all tr.M tr.L rest s0 0 hv.2 s hsr) hI
      · rw [p7_trace_Validate, if_neg hv] at h
        simp [eslFAIL, eslOK] at h

/-- A valid trace containing an insert step, for the C9 witness. -/
def exC9 : P7_TRACE :=
  { steps := [⟨.S,0,0,0⟩, ⟨.N,0,0,0⟩, ⟨.B,0,0,0⟩, ⟨.L,0,0,0⟩,
              ⟨.ML,1,1,0⟩, ⟨.IL,1,2,0⟩, ⟨.ML,2,3,0⟩, ⟨.E,0,0,0⟩,
              ⟨.C,0,0,0⟩, ⟨.T,0,0,0⟩],
    nalloc := 10, M := 2, L := 3, dom := [], ndomalloc := 0 }

theorem p7_trace_Validate_no_I0_IM_witness :
    1 ≤ (⟨.IL, 1, 2, 0⟩ : P7_Step).k ∧ (⟨.IL, 1, 2, 0⟩ : P7_Step).k ≤ exC9.M - 1 :=
  p7_trace_Validate_no_I0_IM exC9 (by decide) ⟨.IL, 1, 2, 0⟩ (by decide) (by decide)

/-- C10: N = 0 is a legal trace value meaning "no traceback":
p7_trace_Create returns an empty trace (N = 0), and Validate accepts any
trace with N = 0 without error even though it contains no S..T path. -/
theorem p7_trace_Validate_accepts_empty :
    p7_trace_Create.N = 0 ∧
    (∀ tr : P7_TRACE, tr.N = 0 → p7_trace_Validate tr = eslOK) := by
  refine ⟨rfl, ?_⟩
  intro tr h
  have hnil : tr.steps = [] := List.length_eq_zero.mp h
  rw [p7_trace_Validate, hnil]
  rfl

theorem p7_trace_Validate_accepts_empty_witness :
    p7_trace_Validate p7_trace_Create = eslOK :=
  p7_trace_Validate_accepts_empty.2 p7_trace_Create p7_trace_Validate_accepts_empty.1
